import Mathlib

/-!
Verification of the GrStrokeGeometry stroke-to-tessellation-patch converter.

The repository excerpt contains the class header (constructor, destructor and
the declarations of all private operations).  The bodies of the private
operations are not part of the excerpt, so they are modelled from the spec,
as indicated in the doc comment of each such definition.  Machine integers
are modelled as Nat (all the quantities involved are vertex counts, which the
spec keeps nonnegative); the single signed quantity, the argument passed to
putBackVertices by the destructor, is modelled as Int.
-/

namespace GrStrokeGeometry

/-- Number of vertices in one tessellation patch.  Modelled from the spec:
the constant itself lives in GrTessellateStrokeShader, which is not in the
excerpt; the header records that join types are written "as floats in P4.x",
so a patch carries points P0..P4, i.e. five vertices. -/
def kNumVerticesPerPatch : Nat := 5

/-- VertexChunk from the header: the number of vertices actually published in
the chunk and the chunk's base vertex offset.  The GPU buffer handle carried
by the C++ struct is elided (it plays no role in any claim). -/
structure VertexChunk where
  fVertexCount : Nat
  fBaseVertex : Nat
deriving DecidableEq, Repr

/-- State of the chunk-allocator adapter, together with the bookkeeping of
the external target.  The target is modelled by its grant function: a
reservation request of n vertices is granted (grant n) vertices; the spec
allows the target to grant more than requested for alignment or efficiency.
The fields requests, reservedTotal and putBacks record the adapter's calls
into the target so that theorems can speak about them. -/
structure Geom where
  grant : Nat → Nat
  fMaxTessellationSegments : Nat
  chunks : List VertexChunk
  fCurrChunkVertexCapacity : Nat
  fCurrChunkMinVertexAllocCount : Nat
  nextBase : Nat
  requests : List Nat
  reservedTotal : Nat
  putBacks : List Int

/-- Modelled from the spec: the body of GrStrokeGeometry::allocVertexChunk is
not in the excerpt.  Per the spec it appends a fresh chunk to the shared
chunk array and reserves minVertexAllocCount vertices from the target,
recording the granted capacity and the chunk's base vertex. -/
def allocVertexChunk (g : Geom) (minVertexAllocCount : Nat) : Geom :=
  let cap := g.grant minVertexAllocCount
  { g with
    chunks := g.chunks ++ [⟨0, g.nextBase⟩]
    fCurrChunkVertexCapacity := cap
    fCurrChunkMinVertexAllocCount := minVertexAllocCount
    nextBase := g.nextBase + cap
    requests := g.requests ++ [minVertexAllocCount]
    reservedTotal := g.reservedTotal + cap }

/-- The constructor (header, lines 44-51): it immediately calls
allocVertexChunk with (totalCombinedVerbCnt * 3) * kNumVerticesPerPatch. -/
def construct (grant : Nat → Nat) (maxTessellationSegments : Nat)
    (totalCombinedVerbCnt : Nat) : Geom :=
  allocVertexChunk
    { grant := grant
      fMaxTessellationSegments := maxTessellationSegments
      chunks := []
      fCurrChunkVertexCapacity := 0
      fCurrChunkMinVertexAllocCount := 0
      nextBase := 0
      requests := []
      reservedTotal := 0
      putBacks := [] }
    (totalCombinedVerbCnt * 3 * kNumVerticesPerPatch)

/-- Helper: apply f to the last element of a list, if any. -/
def modifyLast (f : VertexChunk → VertexChunk) : List VertexChunk → List VertexChunk
  | [] => []
  | [c] => [f c]
  | c :: c' :: rest => c :: modifyLast f (c' :: rest)

/-- Helper: add one patch's worth of vertices to the current (last) chunk. -/
def bumpLast (l : List VertexChunk) : List VertexChunk :=
  modifyLast (fun c => { c with fVertexCount := c.fVertexCount + kNumVerticesPerPatch }) l

/-- Modelled from the spec: the body of GrStrokeGeometry::reservePatch is not
in the excerpt.  Per the spec it returns a slot for exactly one patch's
vertices from the current chunk; if the current chunk has no remaining
capacity it finalizes that chunk (leaving its fields untouched) and requests
a new chunk from the target, sized to at least cover the remaining demand
(modelled as at least the standing minimum allocation count and at least one
patch).  The back() access on the chunk array is modelled as fallible
(Option) so that its in-bounds safety is a statement, not an assumption. -/
def reservePatch (g : Geom) : Option Geom :=
  match g.chunks.getLast? with
  | none => none
  | some back =>
    if g.fCurrChunkVertexCapacity < back.fVertexCount + kNumVerticesPerPatch then
      let g' := allocVertexChunk g (max g.fCurrChunkMinVertexAllocCount kNumVerticesPerPatch)
      some { g' with chunks := bumpLast g'.chunks }
    else
      some { g with chunks := bumpLast g.chunks }

/-- The destructor (header, lines 55-58): it puts back
fCurrChunkVertexCapacity - fVertexChunkArray->back().fVertexCount vertices.
The back() access is modelled as fallible (Option). -/
def destruct (g : Geom) : Option Geom :=
  match g.chunks.getLast? with
  | none => none
  | some back =>
    some { g with
           putBacks := g.putBacks ++
             [(g.fCurrChunkVertexCapacity : Int) - (back.fVertexCount : Int)] }

/-- Run n successive reservePatch calls (one per emitted patch). -/
def runPatches (g : Geom) : Nat → Option Geom
  | 0 => some g
  | n + 1 => (runPatches g n).bind reservePatch

/-- Total number of vertices published across all chunks. -/
def sumCounts (l : List VertexChunk) : Nat :=
  (l.map (fun c => c.fVertexCount)).sum

/-- A target grant function is well behaved when it grants at least what was
requested (the spec's reserve is best-effort upward: it may grant more). -/
def Grants (f : Nat → Nat) : Prop := ∀ n, n ≤ f n

theorem modifyLast_concat (f : VertexChunk → VertexChunk) (l : List VertexChunk)
    (c : VertexChunk) : modifyLast f (l ++ [c]) = l ++ [f c] := by
  induction l with
  | nil => rfl
  | cons a l ih =>
    cases l with
    | nil => rfl
    | cons b l' => simpa [modifyLast] using ih

theorem bumpLast_concat (l : List VertexChunk) (c : VertexChunk) :
    bumpLast (l ++ [c]) =
      l ++ [{ c with fVertexCount := c.fVertexCount + kNumVerticesPerPatch }] := by
  simp [bumpLast, modifyLast_concat]

theorem sumCounts_concat (l : List VertexChunk) (c : VertexChunk) :
    sumCounts (l ++ [c]) = sumCounts l + c.fVertexCount := by
  simp [sumCounts]

theorem reservePatch_eq_of_fits (g : Geom) (l : List VertexChunk) (c : VertexChunk)
    (hlc : g.chunks = l ++ [c])
    (hcap : ¬ g.fCurrChunkVertexCapacity < c.fVertexCount + kNumVerticesPerPatch) :
    reservePatch g = some { g with
      chunks := l ++ [{ c with fVertexCount := c.fVertexCount + kNumVerticesPerPatch }] } := by
  have hlast : g.chunks.getLast? = some c := by
    rw [hlc]; exact List.getLast?_concat _
  simp [reservePatch, hlast, hcap, hlc, bumpLast_concat]

theorem reservePatch_eq_of_full (g : Geom) (l : List VertexChunk) (c : VertexChunk)
    (hlc : g.chunks = l ++ [c])
    (hcap : g.fCurrChunkVertexCapacity < c.fVertexCount + kNumVerticesPerPatch) :
    reservePatch g = some
      { allocVertexChunk g (max g.fCurrChunkMinVertexAllocCount kNumVerticesPerPatch) with
        chunks := g.chunks ++ [⟨kNumVerticesPerPatch, g.nextBase⟩] } := by
  have hlast : g.chunks.getLast? = some c := by
    rw [hlc]; exact List.getLast?_concat _
  simp [reservePatch, hlast, hcap, allocVertexChunk, bumpLast_concat]

/-- Invariant holding after k successful reservePatch calls on an adapter
whose initial chunk was granted cap0 vertices. -/
structure Inv (cap0 k : Nat) (g : Geom) : Prop where
  ne : g.chunks ≠ []
  sum : sumCounts g.chunks = k * kNumVerticesPerPatch
  last_le : ∀ c, g.chunks.getLast? = some c →
    c.fVertexCount ≤ g.fCurrChunkVertexCapacity
  one : g.chunks.length = 1 →
    g.fCurrChunkVertexCapacity = cap0 ∧
      ∀ c, g.chunks.getLast? = some c → c.fVertexCount = k * kNumVerticesPerPatch
  pb : g.putBacks = []

theorem inv_construct (grant : Nat → Nat) (maxSeg v : Nat) :
    Inv (grant (v * 3 * kNumVerticesPerPatch)) 0 (construct grant maxSeg v) := by
  constructor <;> simp [construct, allocVertexChunk, sumCounts]

theorem reservePatch_inv {cap0 k : Nat} {g : Geom} (hg : Grants g.grant)
    (h : Inv cap0 k g) :
    ∃ g', reservePatch g = some g' ∧ Inv cap0 (k + 1) g' ∧ g'.grant = g.grant ∧
      g'.putBacks = g.putBacks ∧ g.chunks.length ≤ g'.chunks.length := by
  rcases List.eq_nil_or_concat g.chunks with hnil | ⟨l, c, hlc⟩
  · exact absurd hnil h.ne
  rw [List.concat_eq_append] at hlc
  have hsum : sumCounts l + c.fVertexCount = k * kNumVerticesPerPatch := by
    have := h.sum; rw [hlc, sumCounts_concat] at this; exact this
  have hlast : g.chunks.getLast? = some c := by
    rw [hlc]; exact List.getLast?_concat _
  by_cases hcap : g.fCurrChunkVertexCapacity < c.fVertexCount + kNumVerticesPerPatch
  · refine ⟨_, reservePatch_eq_of_full g l c hlc hcap, ?_, rfl, rfl, ?_⟩
    · constructor
      · simp
      · show sumCounts (g.chunks ++ [⟨kNumVerticesPerPatch, g.nextBase⟩]) = _
        rw [sumCounts_concat, h.sum]
        ring
      · intro c' hc'
        have hc'' : ((g.chunks ++ [(⟨kNumVerticesPerPatch, g.nextBase⟩ : VertexChunk)]).getLast?
            = some c') := hc'
        rw [List.getLast?_concat] at hc''
        cases hc''
        show kNumVerticesPerPatch ≤
          g.grant (max g.fCurrChunkMinVertexAllocCount kNumVerticesPerPatch)
        calc kNumVerticesPerPatch
            ≤ max g.fCurrChunkMinVertexAllocCount kNumVerticesPerPatch :=
              le_max_right _ _
          _ ≤ g.grant (max g.fCurrChunkMinVertexAllocCount kNumVerticesPerPatch) :=
              hg _
      · intro hlen
        exfalso
        have hlen' : (g.chunks ++ [(⟨kNumVerticesPerPatch, g.nextBase⟩ : VertexChunk)]).length
            = 1 := hlen
        rw [hlc] at hlen'
        simp [List.length_append] at hlen'
      · exact h.pb
    · show g.chunks.length ≤ (g.chunks ++ [(⟨kNumVerticesPerPatch, g.nextBase⟩ : VertexChunk)]).length
      simp
  · refine ⟨_, reservePatch_eq_of_fits g l c hlc hcap, ?_, rfl, rfl, ?_⟩
    · constructor
      · simp
      · show sumCounts (l ++ [{ c with fVertexCount := c.fVertexCount + kNumVerticesPerPatch }])
            = (k + 1) * kNumVerticesPerPatch
        rw [sumCounts_concat]
        simp only [Nat.succ_mul]
        omega
      · intro c' hc'
        have hc'' : ((l ++ [{ c with fVertexCount := c.fVertexCount + kNumVerticesPerPatch }]).getLast?
            = some c') := hc'
        rw [List.getLast?_concat] at hc''
        cases hc''
        show c.fVertexCount + kNumVerticesPerPatch ≤ g.fCurrChunkVertexCapacity
        omega
      · intro hlen
        have hlen' : (l ++ [{ c with fVertexCount := c.fVertexCount + kNumVerticesPerPatch }]).length
            = 1 := hlen
        simp [List.length_append] at hlen'
        subst hlen'
        have h1 : g.chunks.length = 1 := by rw [hlc]; rfl
        obtain ⟨hcapeq, hcnt⟩ := h.one h1
        have hcc := hcnt c hlast
        refine ⟨hcapeq, ?_⟩
        intro c' hc'
        have hc'' : (([] ++ [{ c with fVertexCount := c.fVertexCount + kNumVerticesPerPatch }]).getLast?
            = some c') := hc'
        rw [List.getLast?_concat] at hc''
        cases hc''
        show c.fVertexCount + kNumVerticesPerPatch = (k + 1) * kNumVerticesPerPatch
        simp only [Nat.succ_mul]
        omega
      · exact h.pb
    · show g.chunks.length ≤ (l ++ [{ c with fVertexCount := c.fVertexCount + kNumVerticesPerPatch }]).length
      rw [hlc]
      simp

theorem runPatches_inv (grant : Nat → Nat) (hg : Grants grant)
    (maxSeg v n : Nat) :
    ∃ g', runPatches (construct grant maxSeg v) n = some g' ∧
      Inv (grant (v * 3 * kNumVerticesPerPatch)) n g' ∧ g'.grant = grant := by
  induction n with
  | zero => exact ⟨_, rfl, inv_construct grant maxSeg v, rfl⟩
  | succ n ih =>
    obtain ⟨gmid, hrun, hinv, hgr⟩ := ih
    have hg' : Grants gmid.grant := by rw [hgr]; exact hg
    obtain ⟨g', hstep, hinv', hgr', _, _⟩ := reservePatch_inv hg' hinv
    refine ⟨g', ?_, hinv', by rw [hgr', hgr]⟩
    simp [runPatches, hrun, hstep]

theorem destruct_of_inv {cap0 k : Nat} {g : Geom} (h : Inv cap0 k g) :
    ∃ g' back, g.chunks.getLast? = some back ∧
      destruct g = some g' ∧ g'.chunks = g.chunks ∧
      g'.putBacks = g.putBacks ++
        [(g.fCurrChunkVertexCapacity : Int) - (back.fVertexCount : Int)] := by
  rcases List.eq_nil_or_concat g.chunks with hnil | ⟨l, c, hlc⟩
  · exact absurd hnil h.ne
  rw [List.concat_eq_append] at hlc
  have hlast : g.chunks.getLast? = some c := by
    rw [hlc]; exact List.getLast?_concat _
  refine ⟨{ g with putBacks := g.putBacks ++
      [(g.fCurrChunkVertexCapacity : Int) - (c.fVertexCount : Int)] }, c, hlast, ?_, rfl, rfl⟩
  simp [destruct, hlast]

theorem reservePatch_length_mono {g g' : Geom} (h : reservePatch g = some g') :
    g.chunks.length ≤ g'.chunks.length := by
  rcases List.eq_nil_or_concat g.chunks with hnil | ⟨l, c, hlc⟩
  · rw [reservePatch, hnil] at h
    simp at h
  rw [List.concat_eq_append] at hlc
  by_cases hcap : g.fCurrChunkVertexCapacity < c.fVertexCount + kNumVerticesPerPatch
  · rw [reservePatch_eq_of_full g l c hlc hcap] at h
    cases h
    show g.chunks.length ≤ (g.chunks ++ [(⟨kNumVerticesPerPatch, g.nextBase⟩ : VertexChunk)]).length
    simp
  · rw [reservePatch_eq_of_fits g l c hlc hcap] at h
    cases h
    show g.chunks.length
        ≤ (l ++ [{ c with fVertexCount := c.fVertexCount + kNumVerticesPerPatch }]).length
    rw [hlc]
    simp

theorem reservePatch_preserves_get? {g g' : Geom} (h : reservePatch g = some g')
    {i : Nat} (hi : i + 1 < g.chunks.length) :
    g'.chunks.get? i = g.chunks.get? i := by
  rcases List.eq_nil_or_concat g.chunks with hnil | ⟨l, c, hlc⟩
  · rw [reservePatch, hnil] at h
    simp at h
  rw [List.concat_eq_append] at hlc
  have hil : i < l.length := by
    rw [hlc] at hi
    simp [List.length_append] at hi
    omega
  by_cases hcap : g.fCurrChunkVertexCapacity < c.fVertexCount + kNumVerticesPerPatch
  · rw [reservePatch_eq_of_full g l c hlc hcap] at h
    cases h
    show (g.chunks ++ [(⟨kNumVerticesPerPatch, g.nextBase⟩ : VertexChunk)]).get? i
        = g.chunks.get? i
    exact List.get?_append (by omega)
  · rw [reservePatch_eq_of_fits g l c hlc hcap] at h
    cases h
    show (l ++ [{ c with fVertexCount := c.fVertexCount + kNumVerticesPerPatch }]).get? i
        = g.chunks.get? i
    rw [hlc, List.get?_append hil, List.get?_append hil]

theorem runPatches_length_mono {g : Geom} {n : Nat} {g' : Geom}
    (h : runPatches g n = some g') : g.chunks.length ≤ g'.chunks.length := by
  induction n generalizing g' with
  | zero => cases h; exact le_rfl
  | succ n ih =>
    rw [runPatches] at h
    obtain ⟨gmid, h1, h2⟩ := Option.bind_eq_some.mp h
    exact le_trans (ih h1) (reservePatch_length_mono h2)

theorem runPatches_preserves_get? {g : Geom} {n : Nat} {g' : Geom}
    (h : runPatches g n = some g') {i : Nat} (hi : i + 1 < g.chunks.length) :
    g'.chunks.get? i = g.chunks.get? i := by
  induction n generalizing g' with
  | zero => cases h; rfl
  | succ n ih =>
    rw [runPatches] at h
    obtain ⟨gmid, h1, h2⟩ := Option.bind_eq_some.mp h
    have hlen := runPatches_length_mono h1
    rw [reservePatch_preserves_get? h2 (by omega), ih h1]

theorem destruct_preserves_chunks {g g' : Geom} (h : destruct g = some g') :
    g'.chunks = g.chunks := by
  unfold destruct at h
  split at h
  · simp at h
  · cases h
    rfl

/-- C2: on construction with estimated total verb count totalCombinedVerbCnt,
the adapter immediately issues exactly one reservation request to the target,
for (totalCombinedVerbCnt * 3) * kNumVerticesPerPatch vertices (the 3x
inflation constant appears in the constructor), allocating exactly one chunk,
for every nonnegative totalCombinedVerbCnt. -/
theorem c2_constructor_reservation (grant : Nat → Nat) (maxSeg v : Nat) :
    (construct grant maxSeg v).requests = [v * 3 * kNumVerticesPerPatch] ∧
    (construct grant maxSeg v).chunks.length = 1 ∧
    (construct grant maxSeg v).reservedTotal
      = grant (v * 3 * kNumVerticesPerPatch) := by
  refine ⟨rfl, rfl, ?_⟩
  simp [construct, allocVertexChunk]

/-- C3: for every run whose patch demand exceeds what the initial reservation
can hold, at least one additional chunk is allocated, and at teardown the sum
of fVertexCount over all chunks in the output list equals exactly
kNumVerticesPerPatch times the number of patches emitted. -/
theorem c3_chunk_overflow_invariant (grant : Nat → Nat) (hg : Grants grant)
    (maxSeg v n : Nat) :
    ∃ g' g'', runPatches (construct grant maxSeg v) n = some g' ∧
      destruct g' = some g'' ∧
      ((construct grant maxSeg v).fCurrChunkVertexCapacity
          < n * kNumVerticesPerPatch → 2 ≤ g''.chunks.length) ∧
      sumCounts g''.chunks = kNumVerticesPerPatch * n := by
  obtain ⟨g', hrun, hinv, hgr⟩ := runPatches_inv grant hg maxSeg v n
  obtain ⟨g'', back, hlast, hdes, hchunks, hpb⟩ := destruct_of_inv hinv
  refine ⟨g', g'', hrun, hdes, ?_, ?_⟩
  · intro hover
    rw [hchunks]
    by_contra hlt
    push_neg at hlt
    have hne := hinv.ne
    have hnz : g'.chunks.length ≠ 0 := fun h0 => hne (List.length_eq_zero.mp h0)
    have hlen1 : g'.chunks.length = 1 := by omega
    obtain ⟨hcapeq, hcnt⟩ := hinv.one hlen1
    have h1 := hinv.last_le back hlast
    have h2 := hcnt back hlast
    have hcap0 : (construct grant maxSeg v).fCurrChunkVertexCapacity
        = grant (v * 3 * kNumVerticesPerPatch) := rfl
    rw [hcap0] at hover
    rw [hcapeq] at h1
    omega
  · rw [hchunks, hinv.sum]
    ring

/-- C1 (amended): teardown appends exactly one putBackVertices call, whose
amount is the final chunk's capacity minus the final chunk's published vertex
count; when the whole run stayed inside the single initial chunk, this amount
equals the initial granted reservation minus the total vertices written. -/
theorem c1_teardown_putback (grant : Nat → Nat) (hg : Grants grant)
    (maxSeg v n : Nat) :
    ∃ g' g'' back, runPatches (construct grant maxSeg v) n = some g' ∧
      g'.chunks.getLast? = some back ∧ destruct g' = some g'' ∧
      g''.putBacks
        = [(g'.fCurrChunkVertexCapacity : Int) - (back.fVertexCount : Int)] ∧
      (g'.chunks.length = 1 →
        g''.putBacks = [(grant (v * 3 * kNumVerticesPerPatch) : Int)
          - ((n * kNumVerticesPerPatch : Nat) : Int)]) := by
  obtain ⟨g', hrun, hinv, hgr⟩ := runPatches_inv grant hg maxSeg v n
  obtain ⟨g'', back, hlast, hdes, hchunks, hpb⟩ := destruct_of_inv hinv
  have hpb0 : g'.putBacks = [] := hinv.pb
  refine ⟨g', g'', back, hrun, hlast, hdes, ?_, ?_⟩
  · rw [hpb, hpb0]
    simp
  · intro h1
    obtain ⟨hcapeq, hcnt⟩ := hinv.one h1
    have h2 := hcnt back hlast
    rw [hpb, hpb0, hcapeq, h2]
    simp

/-- Target that grants two alignment vertices over every request. -/
def slackGrant : Nat → Nat := fun n => n + 2

/-- A concrete conversion run: construct for one verb, emit four patches
(overflowing into a second chunk), tear down. -/
def c1CxRun : Option Geom := (runPatches (construct slackGrant 8 1) 4).bind destruct

/-- The state after the concrete run. -/
def c1CxGeom : Geom := c1CxRun.getD (construct slackGrant 8 1)

/-- C1 counterexample: with a target that grants two vertices over each
request (allowed by the spec's best-effort reserve), a run of four patches
overflows into a second chunk; teardown puts back 12 vertices, but the
initial reservation (request 15, granted 17, total reserved over both chunks
34) minus the 20 vertices written is, clamped at zero, 0 (or 14 counting
every grant) — never 12. -/
theorem c1_counterexample :
    c1CxRun.isSome = true ∧
    c1CxGeom.putBacks = [(12 : Int)] ∧
    sumCounts c1CxGeom.chunks = 20 ∧
    c1CxGeom.requests = [15, 15] ∧
    c1CxGeom.reservedTotal = 34 ∧
    ((12 : Int) ≠ max ((15 : Int) - 20) 0) ∧
    ((12 : Int) ≠ max ((17 : Int) - 20) 0) ∧
    ((12 : Int) ≠ max ((34 : Int) - 20) 0) := by
  exact ⟨rfl, by decide, by decide, by decide, by decide, by decide, by decide, by decide⟩

/-- C1 witness: the amended teardown statement evaluated on a concrete
exact-granting target with two emitted patches. -/
theorem c1_teardown_putback_witness :
    Grants id ∧
    (∃ g' g'' back, runPatches (construct id 8 1) 2 = some g' ∧
      g'.chunks.getLast? = some back ∧ destruct g' = some g'' ∧
      g''.putBacks
        = [(g'.fCurrChunkVertexCapacity : Int) - (back.fVertexCount : Int)] ∧
      (g'.chunks.length = 1 →
        g''.putBacks = [(id (1 * 3 * kNumVerticesPerPatch) : Int)
          - ((2 * kNumVerticesPerPatch : Nat) : Int)])) :=
  ⟨fun _ => le_rfl, c1_teardown_putback id (fun _ => le_rfl) 8 1 2⟩

/-- C3 witness: a concrete overflowing run (capacity for three patches,
four patches emitted) evaluated through the theorem. -/
theorem c3_chunk_overflow_witness :
    Grants id ∧
    (∃ g' g'', runPatches (construct id 8 1) 4 = some g' ∧
      destruct g' = some g'' ∧
      ((construct id 8 1).fCurrChunkVertexCapacity
          < 4 * kNumVerticesPerPatch → 2 ≤ g''.chunks.length) ∧
      sumCounts g''.chunks = kNumVerticesPerPatch * 4) :=
  ⟨fun _ => le_rfl, c3_chunk_overflow_invariant id (fun _ => le_rfl) 8 1 4⟩

/-- C9: a chunk other than the currently-writable one is never modified
again: allocVertexChunk, reservePatch, any run of reservePatch calls, and
the destructor all leave every non-final chunk entry of the output array
unchanged (and the destructor touches no chunk at all). -/
theorem c9_superseded_chunks_never_modified :
    (∀ g m i, i + 1 < g.chunks.length →
      (allocVertexChunk g m).chunks.get? i = g.chunks.get? i) ∧
    (∀ g g', reservePatch g = some g' → ∀ i, i + 1 < g.chunks.length →
      g'.chunks.get? i = g.chunks.get? i) ∧
    (∀ g n g', runPatches g n = some g' → ∀ i, i + 1 < g.chunks.length →
      g'.chunks.get? i = g.chunks.get? i) ∧
    (∀ g g', destruct g = some g' → g'.chunks = g.chunks) := by
  refine ⟨?_, ?_, ?_, ?_⟩
  · intro g m i hi
    show (g.chunks ++ [(⟨0, g.nextBase⟩ : VertexChunk)]).get? i = g.chunks.get? i
    exact List.get?_append (by omega)
  · intro g g' h i hi
    exact reservePatch_preserves_get? h hi
  · intro g n g' h i hi
    exact runPatches_preserves_get? h hi
  · intro g g' h
    exact destruct_preserves_chunks h

/-- Concrete two-chunk state used by the C9 witness. -/
def c9Geom : Geom := (runPatches (construct id 8 1) 4).getD (construct id 8 1)

/-- C9 witness: on the concrete two-chunk state, one further reservePatch
leaves the superseded first chunk unchanged. -/
theorem c9_witness :
    reservePatch c9Geom = some ((reservePatch c9Geom).getD c9Geom) ∧
    0 + 1 < c9Geom.chunks.length ∧
    ((reservePatch c9Geom).getD c9Geom).chunks.get? 0 = c9Geom.chunks.get? 0 :=
  ⟨rfl, by decide,
    c9_superseded_chunks_never_modified.2.1 c9Geom
      ((reservePatch c9Geom).getD c9Geom) rfl 0 (by decide)⟩

/-- C10: after construction the chunk array is never empty, the final chunk's
vertex count never exceeds the current chunk capacity, the back() accesses of
reservePatch and of the destructor are in bounds (both succeed), and the
vertex count the destructor passes to putBackVertices is nonnegative. -/
theorem c10_destructor_safety (grant : Nat → Nat) (hg : Grants grant)
    (maxSeg v n : Nat) :
    ∃ g', runPatches (construct grant maxSeg v) n = some g' ∧
      g'.chunks ≠ [] ∧
      (∀ back, g'.chunks.getLast? = some back →
        back.fVertexCount ≤ g'.fCurrChunkVertexCapacity) ∧
      (reservePatch g').isSome = true ∧
      (∃ g'' amt, destruct g' = some g'' ∧
        g''.putBacks = g'.putBacks ++ [amt] ∧ 0 ≤ amt) := by
  obtain ⟨g', hrun, hinv, hgr⟩ := runPatches_inv grant hg maxSeg v n
  obtain ⟨g'', back, hlast, hdes, hchunks, hpb⟩ := destruct_of_inv hinv
  refine ⟨g', hrun, hinv.ne, fun b hb => hinv.last_le b hb, ?_, g'', _, hdes, hpb, ?_⟩
  · obtain ⟨gx, hx, _⟩ := reservePatch_inv (by rw [hgr]; exact hg) hinv
    rw [hx]
    rfl
  · have hle := hinv.last_le back hlast
    omega

/-- C10 witness: the safety statement evaluated on a concrete run of four
patches against an exact-granting target. -/
theorem c10_destructor_safety_witness :
    Grants id ∧
    (∃ g', runPatches (construct id 8 1) 4 = some g' ∧
      g'.chunks ≠ [] ∧
      (∀ back, g'.chunks.getLast? = some back →
        back.fVertexCount ≤ g'.fCurrChunkVertexCapacity) ∧
      (reservePatch g').isSome = true ∧
      (∃ g'' amt, destruct g' = some g'' ∧
        g''.putBacks = g'.putBacks ++ [amt] ∧ 0 ≤ amt)) :=
  ⟨fun _ => le_rfl, c10_destructor_safety id (fun _ => le_rfl) 8 1 4⟩

/-!
Segment processor and patch writer.  The bodies of moveTo, lineTo,
quadraticTo, cubicTo, close, writeJoin, writeCaps and rotateTo are not in the
excerpt; they are modelled from the spec.  Points are exact rational points;
emitted geometry is recorded as a list of patch events carrying the data each
claim speaks about (body patches with their parameter span and forced segment
count, join patches with join type, anchor and the two control points, cap
patches with their end point). -/

/-- Planar point with exact rational coordinates. -/
structure Pt where
  x : ℚ
  y : ℚ
deriving DecidableEq, Repr

/-- Difference of two points, as a direction vector. -/
def Pt.sub (a b : Pt) : Pt := ⟨a.x - b.x, a.y - b.y⟩

/-- Dot product. -/
def Pt.dot (a b : Pt) : ℚ := a.x * b.x + a.y * b.y

/-- Planar cross product. -/
def Pt.cross (a b : Pt) : ℚ := a.x * b.y - a.y * b.x

/-- Linear interpolation from a to b at parameter t. -/
def lerp (a b : Pt) (t : ℚ) : Pt := ⟨a.x + (b.x - a.x) * t, a.y + (b.y - a.y) * t⟩

/-- Stroke join styles (the shader encodes these as floats in P4.x). -/
inductive StrokeJoin where
  | miter
  | round
  | bevel
deriving DecidableEq, Repr

/-- Stroke cap styles (SkPaint::Cap). -/
inductive StrokeCap where
  | butt
  | round
  | square
deriving DecidableEq, Repr

/-- One emitted tessellation patch, recorded at the granularity the claims
need: a segment body patch (with the parameter span of the piece of the
current curve it covers and the forced segment count written into it), a
join patch, or a cap patch. -/
inductive Patch where
  | body (span : ℚ × ℚ) (numSegments : Nat)
  | join (joinType : StrokeJoin) (anchorPoint prevControlPoint nextControlPoint : Pt)
  | cap (endPoint controlPoint : Pt)
deriving DecidableEq, Repr

/-- Path/stroke processing state, mirroring the private fields of the header
(lines 101-130), plus the list of patches emitted so far. -/
structure Proc where
  fMaxTessellationSegments : Nat
  fCurrStrokeRadius : ℚ
  fCurrStrokeJoinType : StrokeJoin
  fCurrStrokeCapType : StrokeCap
  fMaxCurvatureCosTheta : ℚ
  fHasPreviousSegment : Bool
  fCurrContourStartPoint : Pt
  fCurrContourFirstControlPoint : Pt
  fLastControlPoint : Pt
  fCurrentPoint : Pt
  patches : List Patch
deriving DecidableEq, Repr

/-- Append one patch to the output. -/
def emit (s : Proc) (p : Patch) : Proc := { s with patches := s.patches ++ [p] }

/-- Modelled from the spec: writeJoin (header line 77) emits one join patch
recording the join type, the anchor point and the two control points. -/
def writeJoin (s : Proc) (jt : StrokeJoin) (anchor prevC nextC : Pt) : Proc :=
  emit s (Patch.join jt anchor prevC nextC)

/-- Modelled from the spec: each segment first emits a join against the
previous segment when one exists; the very first segment of a contour instead
records its leading control point for the closing join. -/
def beginSegment (s : Proc) (nextCtl : Pt) : Proc :=
  if s.fHasPreviousSegment then
    writeJoin s s.fCurrStrokeJoinType s.fCurrentPoint s.fLastControlPoint nextCtl
  else
    { s with fCurrContourFirstControlPoint := nextCtl }

/-- Bookkeeping after a segment's body has been written: record its trailing
control point and end point and mark that a previous segment now exists. -/
def finishSegment (s : Proc) (trailingCtl endPt : Pt) : Proc :=
  { s with fLastControlPoint := trailingCtl, fCurrentPoint := endPt,
           fHasPreviousSegment := true }

/-- The rotate-without-moving primitive (header lines 97-99): updates the
tracked control point without emitting geometry and without changing the
current position. -/
def rotateTo (s : Proc) (controlPoint : Pt) : Proc :=
  { s with fLastControlPoint := controlPoint }

/-- Modelled from the spec: every forced segment count written into a patch
is capped at fMaxTessellationSegments, the GPU capability queried at
construction (never request more segments than hardware supports). -/
def capSegCount (s : Proc) (want : Nat) : Nat :=
  min want s.fMaxTessellationSegments

/-- The join patch a segment starting at the current point would emit, as a
list (empty when there is no previous segment). -/
def entryJoin (s : Proc) (nextCtl : Pt) : List Patch :=
  if s.fHasPreviousSegment then
    [Patch.join s.fCurrStrokeJoinType s.fCurrentPoint s.fLastControlPoint nextCtl]
  else []

/-- Modelled from the spec: lineTo emits the join against the previous
segment followed by one body patch; a zero-length segment emits nothing
(zero-length segments must not emit degenerate join patches).  For a line the
trailing control point is its start point, so the next join sees the line's
direction. -/
def lineTo (s : Proc) (p1 : Pt) : Proc :=
  if p1 = s.fCurrentPoint then s
  else
    let s1 := beginSegment s p1
    let s2 := emit s1 (Patch.body (0, 1) (capSegCount s 1))
    finishSegment s2 s.fCurrentPoint p1

/-- All four control points of the cubic are collinear (the degenerate case
the spec redirects through the line-handling path). -/
def collinear4 (p0 p1 p2 p3 : Pt) : Prop :=
  Pt.cross (p1.sub p0) (p3.sub p0) = 0 ∧ Pt.cross (p2.sub p0) (p3.sub p0) = 0

instance (p0 p1 p2 p3 : Pt) : Decidable (collinear4 p0 p1 p2 p3) :=
  inferInstanceAs (Decidable (_ ∧ _))

/-- Leading control point of a cubic: the first control point distinct from
the start point (a curve with fewer distinct control points collapses toward
the line case). -/
def leadCtl (p0 p1 p2 p3 : Pt) : Pt :=
  if p1 ≠ p0 then p1 else if p2 ≠ p0 then p2 else p3

/-- Trailing control point of a cubic: the last control point distinct from
the end point. -/
def trailCtl (p0 p1 p2 p3 : Pt) : Pt :=
  if p2 ≠ p3 then p2 else if p1 ≠ p3 then p1 else p0

/-- Modelled from the spec: decides whether the cosine of the angle between
directions u and v is strictly below c, via sign-aware squaring so the test
stays in exact rational arithmetic.  A zero-length direction carries no turn
and is treated as cosine one. -/
def cosLt (u v : Pt) (c : ℚ) : Bool :=
  let d := Pt.dot u v
  let n2 := Pt.dot u u * Pt.dot v v
  if n2 = 0 then decide (1 < c)
  else if 0 ≤ c then
    decide (d < 0) || (decide (0 ≤ d) && decide (d ^ 2 < c ^ 2 * n2))
  else
    decide (d < 0) && decide (c ^ 2 * n2 < d ^ 2)

/-- Modelled from the spec: the curvature of a cubic exceeds the tolerance
implied by the stroke radius when the cosine of one of the two control
polygon turns falls below the fMaxCurvatureCosTheta threshold. -/
def cubicExceedsTolerance (theta : ℚ) (p0 p1 p2 p3 : Pt) : Bool :=
  cosLt (p1.sub p0) (p2.sub p1) theta || cosLt (p2.sub p1) (p3.sub p2) theta

/-- Modelled from the spec: the parameter of maximum curvature, located at
the sharper of the two control polygon turns (the interior control points sit
at parameters one third and two thirds). -/
def cubicMaxCurvatureT (theta : ℚ) (p0 p1 p2 p3 : Pt) : ℚ :=
  if cosLt (p1.sub p0) (p2.sub p1) theta then 1 / 3 else 2 / 3

/-- De Casteljau second-level point over the leading edge at parameter t. -/
def casABC (p0 p1 p2 p3 : Pt) (t : ℚ) : Pt :=
  lerp (lerp p0 p1 t) (lerp p1 p2 t) t

/-- De Casteljau second-level point over the trailing edge at parameter t. -/
def casBCD (p0 p1 p2 p3 : Pt) (t : ℚ) : Pt :=
  lerp (lerp p1 p2 t) (lerp p2 p3 t) t

/-- Exact point of the cubic at parameter t. -/
def cubicEval (p0 p1 p2 p3 : Pt) (t : ℚ) : Pt :=
  lerp (casABC p0 p1 p2 p3 t) (casBCD p0 p1 p2 p3 t) t

/-- Modelled from the spec: cubicTo.  A fully degenerate cubic emits nothing;
a cubic whose four control points are collinear is redirected through the
line-handling path and then rotates the tracked control point back to the
cubic's own trailing control direction; a cubic within curvature tolerance
emits one body patch; a cubic exceeding tolerance is split before and after
the maximum-curvature point into three body patches connected by round
joins, the middle one carrying a forced segment count since the caller knows
it needs no further adaptive subdivision. -/
def cubicTo (s : Proc) (p1 p2 p3 : Pt) : Proc :=
  let p0 := s.fCurrentPoint
  if p1 = p0 ∧ p2 = p0 ∧ p3 = p0 then s
  else if collinear4 p0 p1 p2 p3 then
    rotateTo (lineTo s p3) (trailCtl p0 p1 p2 p3)
  else if cubicExceedsTolerance s.fMaxCurvatureCosTheta p0 p1 p2 p3 then
    let t := cubicMaxCurvatureT s.fMaxCurvatureCosTheta p0 p1 p2 p3
    let tL := t / 2
    let tR := (t + 1) / 2
    let qL := cubicEval p0 p1 p2 p3 tL
    let qR := cubicEval p0 p1 p2 p3 tR
    let s1 := beginSegment s (leadCtl p0 p1 p2 p3)
    let s2 := emit s1 (Patch.body (0, tL) (capSegCount s 0))
    let s3 := emit s2 (Patch.join StrokeJoin.round qL (casABC p0 p1 p2 p3 tL) qR)
    let s4 := emit s3 (Patch.body (tL, tR) (capSegCount s 1))
    let s5 := emit s4 (Patch.join StrokeJoin.round qR (casBCD p0 p1 p2 p3 tR)
      (trailCtl p0 p1 p2 p3))
    let s6 := emit s5 (Patch.body (tR, 1) (capSegCount s 0))
    finishSegment s6 (trailCtl p0 p1 p2 p3) p3
  else
    let s1 := beginSegment s (leadCtl p0 p1 p2 p3)
    let s2 := emit s1 (Patch.body (0, 1) (capSegCount s 0))
    finishSegment s2 (trailCtl p0 p1 p2 p3) p3

/-- Modelled from the spec: quadratics follow the same subdivision policy as
cubics; the model routes them through exact degree elevation (a quadratic is
exactly a cubic whose interior control points sit two thirds of the way
toward the quadratic control point). -/
def quadraticTo (s : Proc) (p1 p2 : Pt) : Proc :=
  cubicTo s (lerp s.fCurrentPoint p1 (2 / 3)) (lerp p2 p1 (2 / 3)) p2

/-- Modelled from the spec: moveTo records the contour start point and clears
the previous-segment flag. -/
def moveTo (s : Proc) (p : Pt) : Proc :=
  { s with fCurrentPoint := p, fCurrContourStartPoint := p,
           fHasPreviousSegment := false }

/-- Modelled from the spec: close emits the closing join back to the contour
start point against the contour's first control point (emitting the implicit
closing line first when the current point is elsewhere) and ends the contour,
so no caps are written for it. -/
def close (s : Proc) : Proc :=
  if s.fHasPreviousSegment then
    let s1 := if s.fCurrentPoint = s.fCurrContourStartPoint then s
              else lineTo s s.fCurrContourStartPoint
    let s2 := writeJoin s1 s1.fCurrStrokeJoinType s1.fCurrContourStartPoint
      s1.fLastControlPoint s1.fCurrContourFirstControlPoint
    { s2 with fHasPreviousSegment := false }
  else s

/-- Modelled from the spec: writeCaps runs once at the end of an open
contour; a Butt cap emits no geometry, Round and Square each emit one cap
patch at the contour's start point and one at its end point.  A contour with
no previous segment has no geometry to cap. -/
def writeCaps (s : Proc) : Proc :=
  if s.fHasPreviousSegment then
    match s.fCurrStrokeCapType with
    | StrokeCap.butt => s
    | _ =>
      let s1 := emit s (Patch.cap s.fCurrContourStartPoint
        s.fCurrContourFirstControlPoint)
      emit s1 (Patch.cap s.fCurrentPoint s.fLastControlPoint)
  else s

/-- A typed path segment, as handed over by path iteration. -/
inductive Segment where
  | line (p1 : Pt)
  | quad (p1 p2 : Pt)
  | cubic (p1 p2 p3 : Pt)
deriving DecidableEq, Repr

/-- Dispatch one segment to its handler. -/
def segmentTo (s : Proc) : Segment → Proc
  | Segment.line p1 => lineTo s p1
  | Segment.quad p1 p2 => quadraticTo s p1 p2
  | Segment.cubic p1 p2 p3 => cubicTo s p1 p2 p3

/-- Process one contour: move to its start, run its segments in order, then
either close it (closed contour: closing join, no caps) or cap it (open
contour). -/
def processContour (s : Proc) (start : Pt) (segs : List Segment)
    (closed : Bool) : Proc :=
  let s1 := segs.foldl segmentTo (moveTo s start)
  if closed then close s1 else writeCaps s1

/-- Endpoint of a segment. -/
def segEnd (seg : Segment) : Pt :=
  match seg with
  | Segment.line p1 => p1
  | Segment.quad _ p2 => p2
  | Segment.cubic _ _ p3 => p3

/-- Endpoint of a chain of segments started at q. -/
def chainEnd (q : Pt) : List Segment → Pt
  | [] => q
  | seg :: rest => chainEnd (segEnd seg) rest

/-- Number of body patches in a patch list. -/
def countBody (l : List Patch) : Nat :=
  l.countP fun p => match p with | Patch.body _ _ => true | _ => false

/-- Number of join patches in a patch list. -/
def countJoin (l : List Patch) : Nat :=
  l.countP fun p => match p with | Patch.join _ _ _ _ => true | _ => false

/-- Number of cap patches in a patch list. -/
def countCap (l : List Patch) : Nat :=
  l.countP fun p => match p with | Patch.cap _ _ => true | _ => false

/-- End points of the cap patches of a patch list, in order. -/
def capPoints (l : List Patch) : List Pt :=
  l.filterMap fun p => match p with | Patch.cap e _ => some e | _ => none

/-- Forced segment count carried by a patch (zero for joins and caps). -/
def patchNumSegments : Patch → Nat
  | Patch.body _ n => n
  | _ => 0

theorem beginSegment_patches (s : Proc) (c : Pt) :
    (beginSegment s c).patches = s.patches ++ entryJoin s c := by
  cases h : s.fHasPreviousSegment <;> simp [beginSegment, entryJoin, writeJoin, emit, h]

theorem countBody_append (a b : List Patch) :
    countBody (a ++ b) = countBody a + countBody b := by
  simp [countBody, List.countP_append]

theorem countJoin_append (a b : List Patch) :
    countJoin (a ++ b) = countJoin a + countJoin b := by
  simp [countJoin, List.countP_append]

theorem countCap_append (a b : List Patch) :
    countCap (a ++ b) = countCap a + countCap b := by
  simp [countCap, List.countP_append]

theorem countBody_entryJoin (s : Proc) (c : Pt) : countBody (entryJoin s c) = 0 := by
  cases h : s.fHasPreviousSegment <;> simp [entryJoin, h, countBody]

theorem countJoin_entryJoin (s : Proc) (c : Pt) :
    countJoin (entryJoin s c) = (if s.fHasPreviousSegment then 1 else 0) := by
  cases h : s.fHasPreviousSegment <;> simp [entryJoin, h, countJoin]

theorem countCap_entryJoin (s : Proc) (c : Pt) : countCap (entryJoin s c) = 0 := by
  cases h : s.fHasPreviousSegment <;> simp [entryJoin, h, countCap]

theorem cubicMaxCurvatureT_bounds (theta : ℚ) (p0 p1 p2 p3 : Pt) :
    0 ≤ cubicMaxCurvatureT theta p0 p1 p2 p3 ∧
      cubicMaxCurvatureT theta p0 p1 p2 p3 ≤ 1 := by
  unfold cubicMaxCurvatureT
  split <;> norm_num

/-- C4: for a cubic processed under the current stroke radius, curvature
strictly below the tolerance implied by the fMaxCurvatureCosTheta threshold
makes cubicTo emit exactly one body patch, while curvature exceeding the
tolerance makes it emit at least two body patches connected by round joins,
with the maximum-curvature parameter lying inside the span of one of the
emitted body patches. -/
theorem c4_cubic_subdivision (s : Proc) (p1 p2 p3 : Pt)
    (hz : ¬(p1 = s.fCurrentPoint ∧ p2 = s.fCurrentPoint ∧ p3 = s.fCurrentPoint))
    (hc : ¬ collinear4 s.fCurrentPoint p1 p2 p3) :
    (cubicExceedsTolerance s.fMaxCurvatureCosTheta s.fCurrentPoint p1 p2 p3 = false →
      countBody ((cubicTo s p1 p2 p3).patches.drop s.patches.length) = 1) ∧
    (cubicExceedsTolerance s.fMaxCurvatureCosTheta s.fCurrentPoint p1 p2 p3 = true →
      2 ≤ countBody ((cubicTo s p1 p2 p3).patches.drop s.patches.length) ∧
      ∃ t a1 b1 c1 a2 b2 c2 k1 k2 k3,
        t = cubicMaxCurvatureT s.fMaxCurvatureCosTheta s.fCurrentPoint p1 p2 p3 ∧
        (cubicTo s p1 p2 p3).patches.drop s.patches.length
          = entryJoin s (leadCtl s.fCurrentPoint p1 p2 p3) ++
            [Patch.body (0, t / 2) k1,
             Patch.join StrokeJoin.round a1 b1 c1,
             Patch.body (t / 2, (t + 1) / 2) k2,
             Patch.join StrokeJoin.round a2 b2 c2,
             Patch.body ((t + 1) / 2, 1) k3] ∧
        t / 2 ≤ t ∧ t ≤ (t + 1) / 2) := by
  constructor
  · intro hf
    have hcu : cubicTo s p1 p2 p3
        = finishSegment
            (emit (beginSegment s (leadCtl s.fCurrentPoint p1 p2 p3))
              (Patch.body (0, 1) (capSegCount s 0)))
            (trailCtl s.fCurrentPoint p1 p2 p3) p3 := by
      rw [cubicTo]
      rw [if_neg hz, if_neg hc]
      simp [hf]
    rw [hcu]
    simp [finishSegment, emit, beginSegment_patches, List.append_assoc,
      List.drop_left, countBody_append, countBody_entryJoin, countBody]
    intro a ha
    rw [entryJoin] at ha
    split at ha
    · simp at ha
      subst ha
      rfl
    · simp at ha
  · intro ht
    have hcu : (cubicTo s p1 p2 p3).patches
        = s.patches ++
            (entryJoin s (leadCtl s.fCurrentPoint p1 p2 p3) ++
              [Patch.body (0, cubicMaxCurvatureT s.fMaxCurvatureCosTheta
                  s.fCurrentPoint p1 p2 p3 / 2) (capSegCount s 0),
               Patch.join StrokeJoin.round
                 (cubicEval s.fCurrentPoint p1 p2 p3
                   (cubicMaxCurvatureT s.fMaxCurvatureCosTheta s.fCurrentPoint p1 p2 p3 / 2))
                 (casABC s.fCurrentPoint p1 p2 p3
                   (cubicMaxCurvatureT s.fMaxCurvatureCosTheta s.fCurrentPoint p1 p2 p3 / 2))
                 (cubicEval s.fCurrentPoint p1 p2 p3
                   ((cubicMaxCurvatureT s.fMaxCurvatureCosTheta s.fCurrentPoint p1 p2 p3 + 1) / 2)),
               Patch.body (cubicMaxCurvatureT s.fMaxCurvatureCosTheta s.fCurrentPoint p1 p2 p3 / 2,
                   (cubicMaxCurvatureT s.fMaxCurvatureCosTheta s.fCurrentPoint p1 p2 p3 + 1) / 2)
                 (capSegCount s 1),
               Patch.join StrokeJoin.round
                 (cubicEval s.fCurrentPoint p1 p2 p3
                   ((cubicMaxCurvatureT s.fMaxCurvatureCosTheta s.fCurrentPoint p1 p2 p3 + 1) / 2))
                 (casBCD s.fCurrentPoint p1 p2 p3
                   ((cubicMaxCurvatureT s.fMaxCurvatureCosTheta s.fCurrentPoint p1 p2 p3 + 1) / 2))
                 (trailCtl s.fCurrentPoint p1 p2 p3),
               Patch.body ((cubicMaxCurvatureT s.fMaxCurvatureCosTheta
                   s.fCurrentPoint p1 p2 p3 + 1) / 2, 1) (capSegCount s 0)]) := by
      rw [cubicTo]
      rw [if_neg hz, if_neg hc]
      simp [ht, finishSegment, emit, beginSegment_patches, List.append_assoc]
    obtain ⟨hb0, hb1⟩ := cubicMaxCurvatureT_bounds s.fMaxCurvatureCosTheta
      s.fCurrentPoint p1 p2 p3
    constructor
    · rw [hcu, List.drop_left]
      simp [countBody_append, countBody_entryJoin, countBody]
    · refine ⟨cubicMaxCurvatureT s.fMaxCurvatureCosTheta s.fCurrentPoint p1 p2 p3,
        cubicEval s.fCurrentPoint p1 p2 p3
          (cubicMaxCurvatureT s.fMaxCurvatureCosTheta s.fCurrentPoint p1 p2 p3 / 2),
        casABC s.fCurrentPoint p1 p2 p3
          (cubicMaxCurvatureT s.fMaxCurvatureCosTheta s.fCurrentPoint p1 p2 p3 / 2),
        cubicEval s.fCurrentPoint p1 p2 p3
          ((cubicMaxCurvatureT s.fMaxCurvatureCosTheta s.fCurrentPoint p1 p2 p3 + 1) / 2),
        cubicEval s.fCurrentPoint p1 p2 p3
          ((cubicMaxCurvatureT s.fMaxCurvatureCosTheta s.fCurrentPoint p1 p2 p3 + 1) / 2),
        casBCD s.fCurrentPoint p1 p2 p3
          ((cubicMaxCurvatureT s.fMaxCurvatureCosTheta s.fCurrentPoint p1 p2 p3 + 1) / 2),
        trailCtl s.fCurrentPoint p1 p2 p3,
        capSegCount s 0, capSegCount s 1, capSegCount s 0,
        rfl, ?_, by linarith, by linarith⟩
      rw [hcu, List.drop_left]

theorem beginSegment_eq (s : Proc) (c : Pt) :
    beginSegment s c =
      { s with patches := s.patches ++ entryJoin s c,
               fCurrContourFirstControlPoint :=
                 if s.fHasPreviousSegment then s.fCurrContourFirstControlPoint
                 else c } := by
  cases h : s.fHasPreviousSegment <;>
    simp [beginSegment, writeJoin, emit, entryJoin, h]

theorem lineTo_eq (s : Proc) (p1 : Pt) (h : ¬ p1 = s.fCurrentPoint) :
    lineTo s p1 =
      { s with patches := s.patches ++ entryJoin s p1 ++
                 [Patch.body (0, 1) (capSegCount s 1)],
               fCurrContourFirstControlPoint :=
                 if s.fHasPreviousSegment then s.fCurrContourFirstControlPoint
                 else p1,
               fLastControlPoint := s.fCurrentPoint,
               fCurrentPoint := p1,
               fHasPreviousSegment := true } := by
  rw [lineTo, if_neg h]
  rw [beginSegment_eq]
  simp [emit, finishSegment]

/-- A concrete processing state used by the witnesses: a fresh contour at the
origin, miter joins, round caps, a tolerance that accepts every turn. -/
def procInit : Proc :=
  { fMaxTessellationSegments := 8
    fCurrStrokeRadius := 1
    fCurrStrokeJoinType := StrokeJoin.miter
    fCurrStrokeCapType := StrokeCap.round
    fMaxCurvatureCosTheta := -2
    fHasPreviousSegment := false
    fCurrContourStartPoint := ⟨0, 0⟩
    fCurrContourFirstControlPoint := ⟨0, 0⟩
    fLastControlPoint := ⟨0, 0⟩
    fCurrentPoint := ⟨0, 0⟩
    patches := [] }

/-- C4 witness: a mildly bent cubic (noncollinear control points) under the
accept-everything tolerance is emitted as exactly one body patch. -/
theorem c4_cubic_subdivision_witness :
    countBody ((cubicTo procInit ⟨1, 0⟩ ⟨2, 1⟩ ⟨3, 0⟩).patches.drop
      procInit.patches.length) = 1 :=
  (c4_cubic_subdivision procInit ⟨1, 0⟩ ⟨2, 1⟩ ⟨3, 0⟩
      (by norm_num [procInit, Pt.mk.injEq])
      (by norm_num [collinear4, Pt.cross, Pt.sub, procInit])).1
    (by norm_num [cubicExceedsTolerance, cosLt, Pt.dot, Pt.sub, procInit])

/-- C7: a cubic whose four control points are collinear (oriented forward
along its chord) produces exactly the same patch output as the line segment
between its endpoints — in particular the same join patch at its start — and
leaves the tracked trailing control direction on the same ray as the line's,
so the join at its end is geometrically the same as the line's. -/
theorem c7_degenerate_cubic_line (s : Proc) (p1 p2 p3 : Pt)
    (h23 : p2 ≠ p3)
    (hcol : collinear4 s.fCurrentPoint p1 p2 p3)
    (hne : p3 ≠ s.fCurrentPoint)
    (hfwd : 0 < Pt.dot (p3.sub p2) (p3.sub s.fCurrentPoint)) :
    (cubicTo s p1 p2 p3).patches = (lineTo s p3).patches ∧
    (cubicTo s p1 p2 p3).fCurrentPoint = (lineTo s p3).fCurrentPoint ∧
    Pt.cross
        ((cubicTo s p1 p2 p3).fCurrentPoint.sub (cubicTo s p1 p2 p3).fLastControlPoint)
        ((lineTo s p3).fCurrentPoint.sub (lineTo s p3).fLastControlPoint) = 0 ∧
    0 < Pt.dot
        ((cubicTo s p1 p2 p3).fCurrentPoint.sub (cubicTo s p1 p2 p3).fLastControlPoint)
        ((lineTo s p3).fCurrentPoint.sub (lineTo s p3).fLastControlPoint) := by
  have hz : ¬(p1 = s.fCurrentPoint ∧ p2 = s.fCurrentPoint ∧ p3 = s.fCurrentPoint) :=
    fun h => hne h.2.2
  have hcu : cubicTo s p1 p2 p3
      = rotateTo (lineTo s p3) (trailCtl s.fCurrentPoint p1 p2 p3) := by
    rw [cubicTo]
    rw [if_neg hz, if_pos hcol]
  have htc : trailCtl s.fCurrentPoint p1 p2 p3 = p2 := by
    rw [trailCtl, if_pos h23]
  have hline := lineTo_eq s p3 hne
  refine ⟨by rw [hcu]; rfl, by rw [hcu]; rfl, ?_, ?_⟩
  · rw [hcu, htc, hline]
    show Pt.cross (p3.sub p2) (p3.sub s.fCurrentPoint) = 0
    have e2 := hcol.2
    simp only [Pt.cross, Pt.sub] at e2 ⊢
    linear_combination (-1 : ℚ) * e2
  · rw [hcu, htc, hline]
    exact hfwd

/-- C7 witness: a collinear cubic along the x axis, evaluated through the
theorem. -/
theorem c7_degenerate_cubic_line_witness :
    (cubicTo procInit ⟨1, 0⟩ ⟨2, 0⟩ ⟨4, 0⟩).patches
        = (lineTo procInit ⟨4, 0⟩).patches ∧
    (cubicTo procInit ⟨1, 0⟩ ⟨2, 0⟩ ⟨4, 0⟩).fCurrentPoint
        = (lineTo procInit ⟨4, 0⟩).fCurrentPoint ∧
    Pt.cross
        ((cubicTo procInit ⟨1, 0⟩ ⟨2, 0⟩ ⟨4, 0⟩).fCurrentPoint.sub
          (cubicTo procInit ⟨1, 0⟩ ⟨2, 0⟩ ⟨4, 0⟩).fLastControlPoint)
        ((lineTo procInit ⟨4, 0⟩).fCurrentPoint.sub
          (lineTo procInit ⟨4, 0⟩).fLastControlPoint) = 0 ∧
    0 < Pt.dot
        ((cubicTo procInit ⟨1, 0⟩ ⟨2, 0⟩ ⟨4, 0⟩).fCurrentPoint.sub
          (cubicTo procInit ⟨1, 0⟩ ⟨2, 0⟩ ⟨4, 0⟩).fLastControlPoint)
        ((lineTo procInit ⟨4, 0⟩).fCurrentPoint.sub
          (lineTo procInit ⟨4, 0⟩).fLastControlPoint) :=
  c7_degenerate_cubic_line procInit ⟨1, 0⟩ ⟨2, 0⟩ ⟨4, 0⟩
    (by norm_num [Pt.mk.injEq])
    (by constructor <;> norm_num [Pt.cross, Pt.sub, procInit])
    (by norm_num [procInit, Pt.mk.injEq])
    (by norm_num [Pt.dot, Pt.sub, procInit])

theorem cubicTo_eq_single (s : Proc) (p1 p2 p3 : Pt)
    (hz : ¬(p1 = s.fCurrentPoint ∧ p2 = s.fCurrentPoint ∧ p3 = s.fCurrentPoint))
    (hc : ¬ collinear4 s.fCurrentPoint p1 p2 p3)
    (hf : cubicExceedsTolerance s.fMaxCurvatureCosTheta s.fCurrentPoint p1 p2 p3
      = false) :
    cubicTo s p1 p2 p3 =
      { s with patches := s.patches ++ entryJoin s (leadCtl s.fCurrentPoint p1 p2 p3)
                 ++ [Patch.body (0, 1) (capSegCount s 0)],
               fCurrContourFirstControlPoint :=
                 if s.fHasPreviousSegment then s.fCurrContourFirstControlPoint
                 else leadCtl s.fCurrentPoint p1 p2 p3,
               fLastControlPoint := trailCtl s.fCurrentPoint p1 p2 p3,
               fCurrentPoint := p3,
               fHasPreviousSegment := true } := by
  rw [cubicTo]
  rw [if_neg hz, if_neg hc]
  simp only [hf, Bool.false_eq_true, if_false]
  rw [beginSegment_eq]
  simp [emit, finishSegment]

/-- A segment is simple at start point q when it is not zero length, its
(possibly degree-elevated) control points are not collinear, and its
curvature stays within tolerance, so that it emits exactly one body patch. -/
def simpleSegB (theta : ℚ) (q : Pt) : Segment → Bool
  | Segment.line p1 => decide (p1 ≠ q)
  | Segment.quad p1 p2 =>
      decide (¬(lerp q p1 (2 / 3) = q ∧ lerp p2 p1 (2 / 3) = q ∧ p2 = q)) &&
      decide (¬ collinear4 q (lerp q p1 (2 / 3)) (lerp p2 p1 (2 / 3)) p2) &&
      !(cubicExceedsTolerance theta q (lerp q p1 (2 / 3)) (lerp p2 p1 (2 / 3)) p2)
  | Segment.cubic p1 p2 p3 =>
      decide (¬(p1 = q ∧ p2 = q ∧ p3 = q)) &&
      decide (¬ collinear4 q p1 p2 p3) &&
      !(cubicExceedsTolerance theta q p1 p2 p3)

/-- Every segment of the chain is simple at the point where it starts. -/
def simpleChainB (theta : ℚ) (q : Pt) : List Segment → Bool
  | [] => true
  | seg :: rest => simpleSegB theta q seg && simpleChainB theta (segEnd seg) rest

theorem segmentTo_simple (s : Proc) (seg : Segment)
    (h : simpleSegB s.fMaxCurvatureCosTheta s.fCurrentPoint seg = true) :
    ∃ ctl trail k, segmentTo s seg =
      { s with patches := s.patches ++ entryJoin s ctl ++ [Patch.body (0, 1) k],
               fCurrContourFirstControlPoint :=
                 if s.fHasPreviousSegment then s.fCurrContourFirstControlPoint
                 else ctl,
               fLastControlPoint := trail,
               fCurrentPoint := segEnd seg,
               fHasPreviousSegment := true } := by
  cases seg with
  | line p1 =>
    have hne : ¬ p1 = s.fCurrentPoint := of_decide_eq_true h
    exact ⟨p1, s.fCurrentPoint, capSegCount s 1,
      by rw [segmentTo, lineTo_eq s p1 hne]; rfl⟩
  | quad p1 p2 =>
    rw [simpleSegB] at h
    simp only [Bool.and_eq_true, decide_eq_true_eq, Bool.not_eq_true'] at h
    obtain ⟨⟨hz, hc⟩, hf⟩ := h
    exact ⟨leadCtl s.fCurrentPoint (lerp s.fCurrentPoint p1 (2 / 3))
        (lerp p2 p1 (2 / 3)) p2,
      trailCtl s.fCurrentPoint (lerp s.fCurrentPoint p1 (2 / 3))
        (lerp p2 p1 (2 / 3)) p2,
      capSegCount s 0,
      by rw [segmentTo, quadraticTo, cubicTo_eq_single s _ _ _ hz hc hf]; rfl⟩
  | cubic p1 p2 p3 =>
    rw [simpleSegB] at h
    simp only [Bool.and_eq_true, decide_eq_true_eq, Bool.not_eq_true'] at h
    obtain ⟨⟨hz, hc⟩, hf⟩ := h
    exact ⟨leadCtl s.fCurrentPoint p1 p2 p3, trailCtl s.fCurrentPoint p1 p2 p3,
      capSegCount s 0,
      by rw [segmentTo, cubicTo_eq_single s p1 p2 p3 hz hc hf]; rfl⟩

theorem foldl_simple (segs : List Segment) (s : Proc)
    (h : simpleChainB s.fMaxCurvatureCosTheta s.fCurrentPoint segs = true)
    (hprev : s.fHasPreviousSegment = true) :
    ∃ d, (segs.foldl segmentTo s).patches = s.patches ++ d ∧
      countBody d = segs.length ∧ countJoin d = segs.length ∧ countCap d = 0 ∧
      (segs.foldl segmentTo s).fCurrentPoint = chainEnd s.fCurrentPoint segs ∧
      (segs.foldl segmentTo s).fHasPreviousSegment = true ∧
      (segs.foldl segmentTo s).fMaxCurvatureCosTheta = s.fMaxCurvatureCosTheta ∧
      (segs.foldl segmentTo s).fCurrContourStartPoint = s.fCurrContourStartPoint ∧
      (segs.foldl segmentTo s).fCurrStrokeCapType = s.fCurrStrokeCapType ∧
      (segs.foldl segmentTo s).fCurrStrokeJoinType = s.fCurrStrokeJoinType ∧
      (segs.foldl segmentTo s).fMaxTessellationSegments
        = s.fMaxTessellationSegments := by
  induction segs generalizing s with
  | nil =>
    exact ⟨[], by simp, by simp [countBody], by simp [countJoin],
      by simp [countCap], rfl, hprev, rfl, rfl, rfl, rfl, rfl⟩
  | cons seg rest ih =>
    rw [simpleChainB, Bool.and_eq_true] at h
    obtain ⟨h1, h2⟩ := h
    obtain ⟨ctl, trail, k, hseg⟩ := segmentTo_simple s seg h1
    have hfold : (seg :: rest).foldl segmentTo s
        = rest.foldl segmentTo (segmentTo s seg) := rfl
    have h2' : simpleChainB (segmentTo s seg).fMaxCurvatureCosTheta
        (segmentTo s seg).fCurrentPoint rest = true := by
      rw [hseg]
      exact h2
    have hprev' : (segmentTo s seg).fHasPreviousSegment = true := by rw [hseg]
    obtain ⟨d', hp', hb', hj', hcp', hcur', hprev'', htheta', hstart', hcap',
      hjt', hmax'⟩ := ih (segmentTo s seg) h2' hprev'
    refine ⟨(entryJoin s ctl ++ [Patch.body (0, 1) k]) ++ d', ?_, ?_, ?_, ?_,
      ?_, ?_, ?_, ?_, ?_, ?_, ?_⟩
    · rw [hfold, hp', hseg]
      simp [List.append_assoc]
    · rw [countBody_append, countBody_append, countBody_entryJoin, hb']
      simp [countBody, List.length_cons]
      omega
    · rw [countJoin_append, countJoin_append, countJoin_entryJoin, hj', hprev]
      simp [countJoin, List.length_cons]
      omega
    · rw [countCap_append, countCap_append, countCap_entryJoin, hcp']
      simp [countCap]
    · rw [hfold, hcur', hseg]
      rfl
    · rw [hfold]; exact hprev''
    · rw [hfold, htheta', hseg]
    · rw [hfold, hstart', hseg]
    · rw [hfold, hcap', hseg]
    · rw [hfold, hjt', hseg]
    · rw [hfold, hmax', hseg]

theorem capPoints_append (a b : List Patch) :
    capPoints (a ++ b) = capPoints a ++ capPoints b := by
  simp [capPoints, List.filterMap_append]

theorem capPoints_eq_nil {l : List Patch} (h : countCap l = 0) :
    capPoints l = [] := by
  induction l with
  | nil => rfl
  | cons p l ih =>
    rw [countCap, List.countP_cons] at h
    rw [capPoints, List.filterMap_cons]
    cases p <;> simp_all [countCap, capPoints]

/-- C5: a closed contour of N simple curve segments emits exactly N body
patches, one join patch per interior segment boundary plus exactly one
closing join (N joins in total), and zero cap patches. -/
theorem c5_closed_contour_patch_count (s : Proc) (start : Pt)
    (segs : List Segment)
    (hchain : simpleChainB s.fMaxCurvatureCosTheta start segs = true)
    (hne : segs ≠ [])
    (hclose : chainEnd start segs = start) :
    ∃ d, (processContour s start segs true).patches = s.patches ++ d ∧
      countBody d = segs.length ∧
      countJoin d = segs.length ∧
      countCap d = 0 := by
  obtain ⟨seg, rest, rfl⟩ : ∃ seg rest, segs = seg :: rest := by
    cases segs with
    | nil => exact absurd rfl hne
    | cons a b => exact ⟨a, b, rfl⟩
  rw [simpleChainB, Bool.and_eq_true] at hchain
  obtain ⟨hc1, hc2⟩ := hchain
  obtain ⟨ctl, trail, k, hseg⟩ := segmentTo_simple (moveTo s start) seg hc1
  have hprev1 : (segmentTo (moveTo s start) seg).fHasPreviousSegment = true := by
    rw [hseg]
  have hc2' : simpleChainB (segmentTo (moveTo s start) seg).fMaxCurvatureCosTheta
      (segmentTo (moveTo s start) seg).fCurrentPoint rest = true := by
    rw [hseg]
    exact hc2
  obtain ⟨d', hp', hb', hj', hcp', hcur', hprev'', htheta', hstart', hcap',
    hjt', hmax'⟩ := foldl_simple rest (segmentTo (moveTo s start) seg) hc2' hprev1
  have hs1p : (segmentTo (moveTo s start) seg).patches
      = s.patches ++ [Patch.body (0, 1) k] := by
    rw [hseg]
    show (moveTo s start).patches ++ entryJoin (moveTo s start) ctl
        ++ [Patch.body (0, 1) k] = s.patches ++ [Patch.body (0, 1) k]
    simp [moveTo, entryJoin]
  have hs2cur : (rest.foldl segmentTo (segmentTo (moveTo s start) seg)).fCurrentPoint
      = start := by
    rw [hcur']
    have : (segmentTo (moveTo s start) seg).fCurrentPoint = segEnd seg := by
      rw [hseg]
    rw [this]
    exact hclose
  have hs2start : (rest.foldl segmentTo
      (segmentTo (moveTo s start) seg)).fCurrContourStartPoint = start := by
    rw [hstart', hseg]
    rfl
  have hcond : (rest.foldl segmentTo (segmentTo (moveTo s start) seg)).fCurrentPoint
      = (rest.foldl segmentTo
        (segmentTo (moveTo s start) seg)).fCurrContourStartPoint := by
    rw [hs2cur, hs2start]
  have hclosep : (processContour s start (seg :: rest) true).patches
      = (rest.foldl segmentTo (segmentTo (moveTo s start) seg)).patches ++
        [Patch.join
          (rest.foldl segmentTo (segmentTo (moveTo s start) seg)).fCurrStrokeJoinType
          (rest.foldl segmentTo
            (segmentTo (moveTo s start) seg)).fCurrContourStartPoint
          (rest.foldl segmentTo (segmentTo (moveTo s start) seg)).fLastControlPoint
          (rest.foldl segmentTo
            (segmentTo (moveTo s start) seg)).fCurrContourFirstControlPoint] := by
    show (close (rest.foldl segmentTo (segmentTo (moveTo s start) seg))).patches = _
    rw [close, if_pos hprev'', if_pos hcond]
    rfl
  refine ⟨[Patch.body (0, 1) k] ++ d' ++
    [Patch.join
      (rest.foldl segmentTo (segmentTo (moveTo s start) seg)).fCurrStrokeJoinType
      (rest.foldl segmentTo
        (segmentTo (moveTo s start) seg)).fCurrContourStartPoint
      (rest.foldl segmentTo (segmentTo (moveTo s start) seg)).fLastControlPoint
      (rest.foldl segmentTo
        (segmentTo (moveTo s start) seg)).fCurrContourFirstControlPoint],
    ?_, ?_, ?_, ?_⟩
  · rw [hclosep, hp', hs1p]
    simp [List.append_assoc]
  · rw [countBody_append, countBody_append, hb']
    simp [countBody]
    omega
  · rw [countJoin_append, countJoin_append, hj']
    simp [countJoin]
  · rw [countCap_append, countCap_append, hcp']
    simp [countCap]

/-- C6: an open contour of simple segments emits exactly two cap patches,
one at the contour start point and one at its end point, when the cap style
is Square or Round, and exactly zero cap patches when the cap style is
Butt. -/
theorem c6_open_contour_caps (s : Proc) (start : Pt) (segs : List Segment)
    (hchain : simpleChainB s.fMaxCurvatureCosTheta start segs = true)
    (hne : segs ≠ []) :
    ∃ d, (processContour s start segs false).patches = s.patches ++ d ∧
      countCap d = (if s.fCurrStrokeCapType = StrokeCap.butt then 0 else 2) ∧
      (s.fCurrStrokeCapType ≠ StrokeCap.butt →
        capPoints d = [start, chainEnd start segs]) := by
  obtain ⟨seg, rest, rfl⟩ : ∃ seg rest, segs = seg :: rest := by
    cases segs with
    | nil => exact absurd rfl hne
    | cons a b => exact ⟨a, b, rfl⟩
  rw [simpleChainB, Bool.and_eq_true] at hchain
  obtain ⟨hc1, hc2⟩ := hchain
  obtain ⟨ctl, trail, k, hseg⟩ := segmentTo_simple (moveTo s start) seg hc1
  have hprev1 : (segmentTo (moveTo s start) seg).fHasPreviousSegment = true := by
    rw [hseg]
  have hc2' : simpleChainB (segmentTo (moveTo s start) seg).fMaxCurvatureCosTheta
      (segmentTo (moveTo s start) seg).fCurrentPoint rest = true := by
    rw [hseg]
    exact hc2
  obtain ⟨d', hp', hb', hj', hcp', hcur', hprev'', htheta', hstart', hcap',
    hjt', hmax'⟩ := foldl_simple rest (segmentTo (moveTo s start) seg) hc2' hprev1
  have hs1p : (segmentTo (moveTo s start) seg).patches
      = s.patches ++ [Patch.body (0, 1) k] := by
    rw [hseg]
    show (moveTo s start).patches ++ entryJoin (moveTo s start) ctl
        ++ [Patch.body (0, 1) k] = s.patches ++ [Patch.body (0, 1) k]
    simp [moveTo, entryJoin]
  have hs2cur : (rest.foldl segmentTo (segmentTo (moveTo s start) seg)).fCurrentPoint
      = chainEnd start (seg :: rest) := by
    rw [hcur']
    have : (segmentTo (moveTo s start) seg).fCurrentPoint = segEnd seg := by
      rw [hseg]
    rw [this]
    rfl
  have hs2start : (rest.foldl segmentTo
      (segmentTo (moveTo s start) seg)).fCurrContourStartPoint = start := by
    rw [hstart', hseg]
    rfl
  have hs2cap : (rest.foldl segmentTo
      (segmentTo (moveTo s start) seg)).fCurrStrokeCapType
      = s.fCurrStrokeCapType := by
    rw [hcap', hseg]
    rfl
  have hpc : (processContour s start (seg :: rest) false).patches
      = (writeCaps (rest.foldl segmentTo (segmentTo (moveTo s start) seg))).patches :=
    rfl
  cases hct : s.fCurrStrokeCapType with
  | butt =>
    refine ⟨[Patch.body (0, 1) k] ++ d', ?_, ?_, ?_⟩
    · rw [hpc, writeCaps, if_pos hprev'', hs2cap, hct]
      show (rest.foldl segmentTo (segmentTo (moveTo s start) seg)).patches
          = s.patches ++ ([Patch.body (0, 1) k] ++ d')
      rw [hp', hs1p]
      simp [List.append_assoc]
    · rw [countCap_append, hcp']
      simp [countCap, hct]
    · intro hcontra
      exact absurd rfl hcontra
  | round =>
    refine ⟨[Patch.body (0, 1) k] ++ d' ++
      [Patch.cap start (rest.foldl segmentTo
          (segmentTo (moveTo s start) seg)).fCurrContourFirstControlPoint,
       Patch.cap (chainEnd start (seg :: rest))
         (rest.foldl segmentTo
           (segmentTo (moveTo s start) seg)).fLastControlPoint], ?_, ?_, ?_⟩
    · rw [hpc, writeCaps, if_pos hprev'', hs2cap, hct]
      show ((rest.foldl segmentTo (segmentTo (moveTo s start) seg)).patches ++ _) ++ _
          = _
      rw [hp', hs1p, hs2start, hs2cur]
      simp [List.append_assoc]
    · rw [countCap_append, countCap_append, hcp']
      simp [countCap, hct]
    · intro _
      rw [capPoints_append, capPoints_append, capPoints_eq_nil hcp',
        capPoints_eq_nil (l := [Patch.body (0, 1) k]) (by simp [countCap])]
      simp [capPoints]
  | square =>
    refine ⟨[Patch.body (0, 1) k] ++ d' ++
      [Patch.cap start (rest.foldl segmentTo
          (segmentTo (moveTo s start) seg)).fCurrContourFirstControlPoint,
       Patch.cap (chainEnd start (seg :: rest))
         (rest.foldl segmentTo
           (segmentTo (moveTo s start) seg)).fLastControlPoint], ?_, ?_, ?_⟩
    · rw [hpc, writeCaps, if_pos hprev'', hs2cap, hct]
      show ((rest.foldl segmentTo (segmentTo (moveTo s start) seg)).patches ++ _) ++ _
          = _
      rw [hp', hs1p, hs2start, hs2cur]
      simp [List.append_assoc]
    · rw [countCap_append, countCap_append, hcp']
      simp [countCap, hct]
    · intro _
      rw [capPoints_append, capPoints_append, capPoints_eq_nil hcp',
        capPoints_eq_nil (l := [Patch.body (0, 1) k]) (by simp [countCap])]
      simp [capPoints]

theorem mem_entryJoin {s : Proc} {c : Pt} {p : Patch} (h : p ∈ entryJoin s c) :
    patchNumSegments p = 0 := by
  rw [entryJoin] at h
  split at h
  · simp at h
    subst h
    rfl
  · simp at h

theorem lineTo_bound (s : Proc) (p1 : Pt) {p : Patch}
    (hp : p ∈ (lineTo s p1).patches) :
    p ∈ s.patches ∨ patchNumSegments p ≤ s.fMaxTessellationSegments := by
  by_cases h : p1 = s.fCurrentPoint
  · rw [lineTo, if_pos h] at hp
    exact Or.inl hp
  · rw [lineTo_eq s p1 h] at hp
    simp only [List.mem_append, List.mem_singleton] at hp
    rcases hp with (hp | hp) | hp
    · exact Or.inl hp
    · right
      rw [mem_entryJoin hp]
      exact Nat.zero_le _
    · right
      subst hp
      exact min_le_right _ _

theorem beginSegment_maxSeg (s : Proc) (c : Pt) :
    (beginSegment s c).fMaxTessellationSegments = s.fMaxTessellationSegments := by
  rw [beginSegment_eq]

theorem lineTo_maxSeg (s : Proc) (p1 : Pt) :
    (lineTo s p1).fMaxTessellationSegments = s.fMaxTessellationSegments := by
  by_cases h : p1 = s.fCurrentPoint
  · rw [lineTo, if_pos h]
  · rw [lineTo_eq s p1 h]

theorem cubicTo_eq_subdiv (s : Proc) (p1 p2 p3 : Pt)
    (hz : ¬(p1 = s.fCurrentPoint ∧ p2 = s.fCurrentPoint ∧ p3 = s.fCurrentPoint))
    (hc : ¬ collinear4 s.fCurrentPoint p1 p2 p3)
    (ht : cubicExceedsTolerance s.fMaxCurvatureCosTheta s.fCurrentPoint p1 p2 p3
      = true) :
    cubicTo s p1 p2 p3 =
      { s with patches := s.patches ++ entryJoin s (leadCtl s.fCurrentPoint p1 p2 p3)
                 ++ [Patch.body (0, cubicMaxCurvatureT s.fMaxCurvatureCosTheta
                        s.fCurrentPoint p1 p2 p3 / 2) (capSegCount s 0),
                     Patch.join StrokeJoin.round
                       (cubicEval s.fCurrentPoint p1 p2 p3
                         (cubicMaxCurvatureT s.fMaxCurvatureCosTheta
                           s.fCurrentPoint p1 p2 p3 / 2))
                       (casABC s.fCurrentPoint p1 p2 p3
                         (cubicMaxCurvatureT s.fMaxCurvatureCosTheta
                           s.fCurrentPoint p1 p2 p3 / 2))
                       (cubicEval s.fCurrentPoint p1 p2 p3
                         ((cubicMaxCurvatureT s.fMaxCurvatureCosTheta
                           s.fCurrentPoint p1 p2 p3 + 1) / 2)),
                     Patch.body (cubicMaxCurvatureT s.fMaxCurvatureCosTheta
                         s.fCurrentPoint p1 p2 p3 / 2,
                       (cubicMaxCurvatureT s.fMaxCurvatureCosTheta
                         s.fCurrentPoint p1 p2 p3 + 1) / 2) (capSegCount s 1),
                     Patch.join StrokeJoin.round
                       (cubicEval s.fCurrentPoint p1 p2 p3
                         ((cubicMaxCurvatureT s.fMaxCurvatureCosTheta
                           s.fCurrentPoint p1 p2 p3 + 1) / 2))
                       (casBCD s.fCurrentPoint p1 p2 p3
                         ((cubicMaxCurvatureT s.fMaxCurvatureCosTheta
                           s.fCurrentPoint p1 p2 p3 + 1) / 2))
                       (trailCtl s.fCurrentPoint p1 p2 p3),
                     Patch.body ((cubicMaxCurvatureT s.fMaxCurvatureCosTheta
                         s.fCurrentPoint p1 p2 p3 + 1) / 2, 1) (capSegCount s 0)],
               fCurrContourFirstControlPoint :=
                 if s.fHasPreviousSegment then s.fCurrContourFirstControlPoint
                 else leadCtl s.fCurrentPoint p1 p2 p3,
               fLastControlPoint := trailCtl s.fCurrentPoint p1 p2 p3,
               fCurrentPoint := p3,
               fHasPreviousSegment := true } := by
  rw [cubicTo]
  rw [if_neg hz, if_neg hc]
  simp only [ht, if_true]
  rw [beginSegment_eq]
  simp [emit, finishSegment, List.append_assoc]

theorem cubicTo_bound (s : Proc) (p1 p2 p3 : Pt) {p : Patch}
    (hp : p ∈ (cubicTo s p1 p2 p3).patches) :
    p ∈ s.patches ∨ patchNumSegments p ≤ s.fMaxTessellationSegments := by
  by_cases hz : p1 = s.fCurrentPoint ∧ p2 = s.fCurrentPoint ∧ p3 = s.fCurrentPoint
  · rw [cubicTo, if_pos hz] at hp
    exact Or.inl hp
  by_cases hc : collinear4 s.fCurrentPoint p1 p2 p3
  · have hcu : cubicTo s p1 p2 p3
        = rotateTo (lineTo s p3) (trailCtl s.fCurrentPoint p1 p2 p3) := by
      rw [cubicTo]
      rw [if_neg hz, if_pos hc]
    rw [hcu] at hp
    exact lineTo_bound s p3 hp
  by_cases ht : cubicExceedsTolerance s.fMaxCurvatureCosTheta s.fCurrentPoint p1 p2 p3
      = true
  · rw [cubicTo_eq_subdiv s p1 p2 p3 hz hc ht] at hp
    simp only [List.mem_append, List.mem_cons, List.mem_singleton,
      List.not_mem_nil, or_false] at hp
    rcases hp with (hp | hp) | hp | hp | hp | hp | hp
    · exact Or.inl hp
    · right
      rw [mem_entryJoin hp]
      exact Nat.zero_le _
    · right; subst hp; exact min_le_right _ _
    · right; subst hp; exact Nat.zero_le _
    · right; subst hp; exact min_le_right _ _
    · right; subst hp; exact Nat.zero_le _
    · right; subst hp; exact min_le_right _ _
  · have ht' : cubicExceedsTolerance s.fMaxCurvatureCosTheta s.fCurrentPoint p1 p2 p3
        = false := by
      revert ht
      cases cubicExceedsTolerance s.fMaxCurvatureCosTheta s.fCurrentPoint p1 p2 p3 <;>
        simp
    rw [cubicTo_eq_single s p1 p2 p3 hz hc ht'] at hp
    simp only [List.mem_append, List.mem_singleton] at hp
    rcases hp with (hp | hp) | hp
    · exact Or.inl hp
    · right
      rw [mem_entryJoin hp]
      exact Nat.zero_le _
    · right; subst hp; exact min_le_right _ _

theorem cubicTo_maxSeg (s : Proc) (p1 p2 p3 : Pt) :
    (cubicTo s p1 p2 p3).fMaxTessellationSegments = s.fMaxTessellationSegments := by
  by_cases hz : p1 = s.fCurrentPoint ∧ p2 = s.fCurrentPoint ∧ p3 = s.fCurrentPoint
  · rw [cubicTo, if_pos hz]
  by_cases hc : collinear4 s.fCurrentPoint p1 p2 p3
  · have hcu : cubicTo s p1 p2 p3
        = rotateTo (lineTo s p3) (trailCtl s.fCurrentPoint p1 p2 p3) := by
      rw [cubicTo]
      rw [if_neg hz, if_pos hc]
    rw [hcu]
    exact lineTo_maxSeg s p3
  by_cases ht : cubicExceedsTolerance s.fMaxCurvatureCosTheta s.fCurrentPoint p1 p2 p3
      = true
  · rw [cubicTo_eq_subdiv s p1 p2 p3 hz hc ht]
  · have ht' : cubicExceedsTolerance s.fMaxCurvatureCosTheta s.fCurrentPoint p1 p2 p3
        = false := by
      revert ht
      cases cubicExceedsTolerance s.fMaxCurvatureCosTheta s.fCurrentPoint p1 p2 p3 <;>
        simp
    rw [cubicTo_eq_single s p1 p2 p3 hz hc ht']

theorem segmentTo_bound (s : Proc) (seg : Segment) {p : Patch}
    (hp : p ∈ (segmentTo s seg).patches) :
    p ∈ s.patches ∨ patchNumSegments p ≤ s.fMaxTessellationSegments := by
  cases seg with
  | line p1 => exact lineTo_bound s p1 hp
  | quad p1 p2 => exact cubicTo_bound s _ _ _ hp
  | cubic p1 p2 p3 => exact cubicTo_bound s _ _ _ hp

theorem segmentTo_maxSeg (s : Proc) (seg : Segment) :
    (segmentTo s seg).fMaxTessellationSegments = s.fMaxTessellationSegments := by
  cases seg with
  | line p1 => exact lineTo_maxSeg s p1
  | quad p1 p2 => exact cubicTo_maxSeg s _ _ _
  | cubic p1 p2 p3 => exact cubicTo_maxSeg s _ _ _

theorem foldl_maxSeg (segs : List Segment) (s : Proc) :
    (segs.foldl segmentTo s).fMaxTessellationSegments
      = s.fMaxTessellationSegments := by
  induction segs generalizing s with
  | nil => rfl
  | cons seg rest ih => rw [List.foldl_cons, ih, segmentTo_maxSeg]

theorem foldl_bound (segs : List Segment) (s : Proc) {p : Patch}
    (hp : p ∈ (segs.foldl segmentTo s).patches) :
    p ∈ s.patches ∨ patchNumSegments p ≤ s.fMaxTessellationSegments := by
  induction segs generalizing s with
  | nil => exact Or.inl hp
  | cons seg rest ih =>
    rcases ih (segmentTo s seg) hp with h | h
    · exact segmentTo_bound s seg h
    · right
      rw [segmentTo_maxSeg] at h
      exact h

theorem close_bound (s : Proc) {p : Patch} (hp : p ∈ (close s).patches) :
    p ∈ s.patches ∨ patchNumSegments p ≤ s.fMaxTessellationSegments := by
  rw [close] at hp
  by_cases h1 : s.fHasPreviousSegment = true
  · rw [if_pos h1] at hp
    by_cases h2 : s.fCurrentPoint = s.fCurrContourStartPoint
    · rw [if_pos h2] at hp
      simp only [writeJoin, emit, List.mem_append, List.mem_singleton] at hp
      rcases hp with hp | hp
      · exact Or.inl hp
      · right
        subst hp
        exact Nat.zero_le _
    · rw [if_neg h2] at hp
      simp only [writeJoin, emit, List.mem_append, List.mem_singleton] at hp
      rcases hp with hp | hp
      · exact lineTo_bound s s.fCurrContourStartPoint hp
      · right
        subst hp
        exact Nat.zero_le _
  · rw [if_neg h1] at hp
    exact Or.inl hp

theorem writeCaps_bound (s : Proc) {p : Patch} (hp : p ∈ (writeCaps s).patches) :
    p ∈ s.patches ∨ patchNumSegments p ≤ s.fMaxTessellationSegments := by
  by_cases h1 : s.fHasPreviousSegment = true
  · rw [writeCaps, if_pos h1] at hp
    cases hcap : s.fCurrStrokeCapType with
    | butt =>
      rw [hcap] at hp
      exact Or.inl hp
    | round =>
      rw [hcap] at hp
      simp only [emit, List.mem_append, List.mem_singleton] at hp
      rcases hp with (hp | hp) | hp
      · exact Or.inl hp
      · right; subst hp; exact Nat.zero_le _
      · right; subst hp; exact Nat.zero_le _
    | square =>
      rw [hcap] at hp
      simp only [emit, List.mem_append, List.mem_singleton] at hp
      rcases hp with (hp | hp) | hp
      · exact Or.inl hp
      · right; subst hp; exact Nat.zero_le _
      · right; subst hp; exact Nat.zero_le _
  · rw [writeCaps, if_neg h1] at hp
    exact Or.inl hp

/-- C8: the forced segment count written into any patch emitted while
processing a contour (including every overrideNumSegments value) never
exceeds fMaxTessellationSegments, the GPU capability queried at
construction. -/
theorem c8_forced_segment_counts_capped (s : Proc) (start : Pt)
    (segs : List Segment) (closed : Bool) (p : Patch)
    (hp : p ∈ (processContour s start segs closed).patches) :
    p ∈ s.patches ∨ patchNumSegments p ≤ s.fMaxTessellationSegments := by
  rw [processContour] at hp
  cases closed with
  | true =>
    simp only [if_true] at hp
    rcases close_bound _ hp with h | h
    · rcases foldl_bound segs (moveTo s start) h with h' | h'
      · exact Or.inl h'
      · exact Or.inr h'
    · right
      rw [foldl_maxSeg] at h
      exact h
  | false =>
    simp only [Bool.false_eq_true, if_false] at hp
    rcases writeCaps_bound _ hp with h | h
    · rcases foldl_bound segs (moveTo s start) h with h' | h'
      · exact Or.inl h'
      · exact Or.inr h'
    · right
      rw [foldl_maxSeg] at h
      exact h

/-- C5 witness: a closed triangle of three line segments emits three body
patches, three joins (two interior plus the closing one) and no caps. -/
theorem c5_closed_contour_witness :
    simpleChainB procInit.fMaxCurvatureCosTheta ⟨0, 0⟩
      [Segment.line ⟨1, 0⟩, Segment.line ⟨0, 1⟩, Segment.line ⟨0, 0⟩] = true ∧
    (∃ d, (processContour procInit ⟨0, 0⟩
        [Segment.line ⟨1, 0⟩, Segment.line ⟨0, 1⟩, Segment.line ⟨0, 0⟩]
        true).patches = procInit.patches ++ d ∧
      countBody d = 3 ∧ countJoin d = 3 ∧ countCap d = 0) :=
  ⟨by decide, c5_closed_contour_patch_count procInit ⟨0, 0⟩
    [Segment.line ⟨1, 0⟩, Segment.line ⟨0, 1⟩, Segment.line ⟨0, 0⟩]
    (by decide) (by decide) rfl⟩

/-- C6 witness: an open two-segment polyline under the Round cap style emits
exactly two cap patches, at its start and end points. -/
theorem c6_open_contour_witness :
    simpleChainB procInit.fMaxCurvatureCosTheta ⟨0, 0⟩
      [Segment.line ⟨1, 0⟩, Segment.line ⟨1, 1⟩] = true ∧
    (∃ d, (processContour procInit ⟨0, 0⟩
        [Segment.line ⟨1, 0⟩, Segment.line ⟨1, 1⟩] false).patches
        = procInit.patches ++ d ∧
      countCap d = (if procInit.fCurrStrokeCapType = StrokeCap.butt then 0 else 2) ∧
      (procInit.fCurrStrokeCapType ≠ StrokeCap.butt →
        capPoints d = [⟨0, 0⟩,
          chainEnd ⟨0, 0⟩ [Segment.line ⟨1, 0⟩, Segment.line ⟨1, 1⟩]])) :=
  ⟨by decide, c6_open_contour_caps procInit ⟨0, 0⟩
    [Segment.line ⟨1, 0⟩, Segment.line ⟨1, 1⟩] (by decide) (by decide)⟩

/-- C8 witness: the body patch written for a single line segment carries a
forced segment count within the capability bound. -/
theorem c8_forced_segment_counts_witness :
    Patch.body (0, 1) 1
        ∈ (processContour procInit ⟨0, 0⟩ [Segment.line ⟨1, 0⟩] false).patches ∧
    (Patch.body (0, 1) 1 ∈ procInit.patches ∨
      patchNumSegments (Patch.body (0, 1) 1) ≤ procInit.fMaxTessellationSegments) :=
  ⟨by decide, c8_forced_segment_counts_capped procInit ⟨0, 0⟩
    [Segment.line ⟨1, 0⟩] false (Patch.body (0, 1) 1) (by decide)⟩

end GrStrokeGeometry
